import Mathlib

/-!
Verification of the `BitVec` SCALE codec (`src/bit_vec.rs` of parity-codec).

The development shallowly embeds the Rust source: machine words become `Nat`
with explicit bounds, byte buffers become `List Nat`, the fallible decoder
returns an explicit outcome (`ok`/`error`/`panic`), and host endianness is a
parameter so that both the little- and big-endian code paths of
`encode_to`/`decode` are covered.  The compact length codec and the exact
byte reader live in `codec.rs`/`compact.rs`, which are not part of the given
sources; they are modelled from the specification where indicated.
-/

namespace ParityCodec

/-- The backing word types admitted by the `Encode`/`Decode` impls
(`bitvec` store types `u8`, `u16`, `u32`, `u64`; `usize` is excluded). -/
inductive WordType where
  | u8
  | u16
  | u32
  | u64
  deriving DecidableEq

/-- Bytes per backing word, the Rust `mem::size_of::<T>()`. -/
def wordBytes : WordType → Nat
  | .u8 => 1
  | .u16 => 2
  | .u32 => 4
  | .u64 => 8

/-- Bits per backing word, the `element_bits` of `required_bytes`. -/
def wordBits (w : WordType) : Nat := 8 * wordBytes w

/-- The closed set of bit-traversal orders of `bitvec` 0.17
(`Msb0` and `Lsb0`), a stateless tag. -/
inductive BitOrd where
  | msb0
  | lsb0
  deriving DecidableEq

/-- Host byte order, the Rust `cfg!(target_endian = "big")` distinction. -/
inductive Endian where
  | little
  | big
  deriving DecidableEq

/-- The opposite host byte order. -/
def flipEndian : Endian → Endian
  | .little => .big
  | .big => .little

/-- One `vec_u8.swap(i, j)` step of `reverse_endian`: the values at the two
positions are exchanged (out-of-range `set` is a no-op, but all uses below
are in range, as in the Rust slice). -/
def swapAt (l : List Nat) (i j : Nat) : List Nat :=
  (l.set i (l.getD j 0)).set j (l.getD i 0)

/-- The inner loop of `reverse_endian` for the chunk starting at `base`:
iterations `j = 0 .. n-1` perform `swap(base + j, base + (size - 1) - j)`,
embedded as recursion on the loop counter (iteration `j = n - 1` last). -/
def swapPairs (l : List Nat) (base size : Nat) : Nat → List Nat
  | 0 => l
  | n + 1 => swapAt (swapPairs l base size n) (base + n) (base + (size - 1) - n)

/-- The outer loop of `reverse_endian`: chunks `i, i+1, ...` (`n` of them)
are processed in increasing order, each by the full inner loop
(`size / 2` swaps). -/
def revChunks (size : Nat) : Nat → Nat → List Nat → List Nat
  | _, 0, l => l
  | i, n + 1, l => revChunks size (i + 1) n (swapPairs l (i * size) size (size / 2))

/-- Rust `reverse_endian(vec_u8, size_of_t)`: for `i in 0..len / size_of_t`,
for `j in 0..size_of_t / 2`, swap `i*size + j` with `i*size + (size-1) - j`;
i.e. each complete word-sized chunk is reversed in place and the tail of
fewer than `size_of_t` bytes is untouched. -/
def reverse_endian (l : List Nat) (size_of_t : Nat) : List Nat :=
  revChunks size_of_t 0 (l.length / size_of_t) l

/-- Rust `required_bytes::<T>(bits)`:
`(bits + element_bits - 1) / element_bits * mem::size_of::<T>()`. -/
def required_bytes (w : WordType) (bits : Nat) : Nat :=
  (bits + wordBits w - 1) / wordBits w * wordBytes w

/-- The index a complete in-chunk reversal sends `k` to: position `k` of a
buffer chunked into `size`-byte words is exchanged with the mirrored
position of the same chunk.  (Helper for stating what `reverse_endian`
computes; not part of the source.) -/
def mirrorIdx (size k : Nat) : Nat :=
  k / size * size + ((size - 1) - k % size)

/-- Little-endian byte representation of width `k` bytes (least significant
byte first), the per-word layout of `byte-slice-cast` on a little-endian
host. -/
def natToBytesLE : Nat → Nat → List Nat
  | 0, _ => []
  | k + 1, x => x % 256 :: natToBytesLE k (x / 256)

/-- Value of a little-endian byte string. -/
def natFromBytesLE : List Nat → Nat
  | [] => 0
  | b :: rest => b + 256 * natFromBytesLE rest

/-- Raw in-memory bytes of one backing word on a host of endianness `e`
(the per-word layout seen by `as_byte_slice`). -/
def wordNativeBytes (e : Endian) (w : WordType) (x : Nat) : List Nat :=
  match e with
  | .little => natToBytesLE (wordBytes w) x
  | .big => (natToBytesLE (wordBytes w) x).reverse

/-- Word value read back from its raw in-memory bytes on a host of
endianness `e` (the byte-wise copy into the aligned word array of
`decode`). -/
def wordFromNativeBytes (e : Endian) (bytes : List Nat) : Nat :=
  match e with
  | .little => natFromBytesLE bytes
  | .big => natFromBytesLE bytes.reverse

/-- A `BitVec<O, T>` value: the logical bit length `len` together with the
backing word array (each entry the numeric value of one `T` word, slack
bits included). -/
structure BitVecRep (w : WordType) where
  len : Nat
  words : List Nat
  deriving DecidableEq

/-- The representation invariant of `BitVec` as used by this codec: the
backing array is minimal for `len`, and every word fits its width. -/
def WF (w : WordType) (v : BitVecRep w) : Prop :=
  v.words.length = (v.len + wordBits w - 1) / wordBits w ∧
    ∀ x ∈ v.words, x < 2 ^ wordBits w

/-- In-word position of logical offset `j` under order `o`: `Msb0` counts
from the most significant bit, `Lsb0` from the least. -/
def bitPos (o : BitOrd) (w : WordType) (j : Nat) : Nat :=
  match o with
  | .msb0 => wordBits w - 1 - j
  | .lsb0 => j

/-- Logical bit `i` of a `BitVec` value under order `o`. -/
def bitAt (o : BitOrd) (w : WordType) (v : BitVecRep w) (i : Nat) : Bool :=
  Nat.testBit (v.words.getD (i / wordBits w) 0) (bitPos o w (i % wordBits w))

/-- The logical bit sequence of a `BitVec` value. -/
def toBits (o : BitOrd) (w : WordType) (v : BitVecRep w) : List Bool :=
  (List.range v.len).map (bitAt o w v)

/-- Modelled from the spec: the compact (SCALE) encoding of a `u32` length
prefix, the external `Compact(len as u32).encode_to(dest)` of `compact.rs`
(not under `src/`): a canonical variable-length little-endian encoding with
a two-bit mode tag. -/
def compactEncodeU32 (n : Nat) : List Nat :=
  if n < 64 then [n * 4]
  else if n < 16384 then [(n * 4 + 1) % 256, (n * 4 + 1) / 256]
  else if n < 1073741824 then
    [(n * 4 + 2) % 256, (n * 4 + 2) / 256 % 256, (n * 4 + 2) / 65536 % 256,
      (n * 4 + 2) / 16777216 % 256]
  else [3, n % 256, n / 256 % 256, n / 65536 % 256, n / 16777216 % 256]

/-- Modelled from the spec: the compact (SCALE) decoding of a `u32` length
prefix, the external `<Compact<u32>>::decode(input)` of `compact.rs` (not
under `src/`): reads the mode tag from the first byte, then the remaining
bytes of the chosen width, and fails (`none`) on truncated or malformed
input.  Returns the value and the unconsumed input. -/
def compactDecodeU32 (input : List Nat) : Option (Nat × List Nat) :=
  match input with
  | [] => none
  | b :: r =>
    if b % 4 = 0 then some (b / 4, r)
    else if b % 4 = 1 then
      match r with
      | b2 :: r2 => some ((b + 256 * b2) / 4, r2)
      | [] => none
    else if b % 4 = 2 then
      match r with
      | b2 :: b3 :: b4 :: r4 =>
        some ((b + 256 * b2 + 65536 * b3 + 16777216 * b4) / 4, r4)
      | _ => none
    else
      if b / 4 = 0 then
        match r with
        | b2 :: b3 :: b4 :: b5 :: r5 =>
          some (b2 + 256 * b3 + 65536 * b4 + 16777216 * b5, r5)
        | _ => none
      else none

/-- Modelled from the spec: `read_vec_from_u8s::<I, u8>(input, n)` of
`codec.rs` (not under `src/`): reads exactly `n` bytes from the input,
failing if fewer remain.  Returns the bytes read and the unconsumed
input. -/
def read_vec_from_u8s (n : Nat) (input : List Nat) : Option (List Nat × List Nat) :=
  if n ≤ input.length then some (input.take n, input.drop n) else none

/-- The raw byte image of the backing word array on a host of endianness
`e`, the Rust `self.as_slice().as_byte_slice()`. -/
def asByteSlice (e : Endian) (w : WordType) (words : List Nat) : List Nat :=
  words.flatMap (wordNativeBytes e w)

/-- Rust `impl Encode for BitVec`, `encode_to`: assert the length fits a
`u32` (modelled as `none`, the overflow failure, with no output produced),
emit the compact length prefix, then the raw backing bytes, reversed per
word by `reverse_endian` on a big-endian host with multi-byte words. -/
def encode (e : Endian) (w : WordType) (v : BitVecRep w) : Option (List Nat) :=
  if v.len ≤ 4294967295 then
    let byteSlice := asByteSlice e w v.words
    if e = .big ∧ 1 < wordBytes w then
      some (compactEncodeU32 v.len ++ reverse_endian byteSlice (wordBytes w))
    else
      some (compactEncodeU32 v.len ++ byteSlice)
  else none

/-- Outcome of `BitVec` decoding: a typed recoverable failure (`error`,
the Rust `Err(Error)`), a fatal assertion failure (`panic`, the Rust
`assert!`), or success with the value and the unconsumed input. -/
inductive DecodeResult (w : WordType) where
  | ok (value : BitVecRep w) (rest : List Nat)
  | error
  | panic
  deriving DecidableEq

/-- The aligned word array of `decode`: `n` words materialized from the
byte buffer by the byte-wise copy through the array's own storage (missing
trailing bytes read as the zero initialization). -/
def wordsFromBytes (e : Endian) (w : WordType) : Nat → List Nat → List Nat
  | 0, _ => []
  | n + 1, bytes =>
    wordFromNativeBytes e (bytes.take (wordBytes w)) ::
      wordsFromBytes e w n (bytes.drop (wordBytes w))

/-- Rust `impl Decode for BitVec`, `decode`: read the compact length
prefix, read exactly `required_bytes` payload bytes, normalize endianness
on a big-endian host, materialize the aligned word array, then
`assert!(bits <= result.len())` (modelled as the `panic` outcome) and
truncate the logical length to `bits`. -/
def decode (e : Endian) (w : WordType) (input : List Nat) : DecodeResult w :=
  match compactDecodeU32 input with
  | none => .error
  | some (bits, r) =>
    match read_vec_from_u8s (required_bytes w bits) r with
    | none => .error
    | some (vec_u8, rest) =>
      let vec_u8' :=
        if e = .big ∧ 1 < wordBytes w then reverse_endian vec_u8 (wordBytes w)
        else vec_u8
      let aligned_vec := wordsFromBytes e w (required_bytes w bits / wordBytes w) vec_u8'
      if bits ≤ aligned_vec.length * wordBits w then .ok ⟨bits, aligned_vec⟩ rest
      else .panic

/-- Decoder input for which reading stops before the word array is built:
the compact length prefix is malformed or truncated, or fewer payload
bytes remain than `required_bytes` of the parsed bit count demands. -/
def truncatedStream (w : WordType) (input : List Nat) : Bool :=
  match compactDecodeU32 input with
  | none => true
  | some (bits, r) => decide (r.length < required_bytes w bits)

/-- Packing of one word from its logical bit chunk under order `o` (bit
`j` of the chunk contributes `2 ^ bitPos o w j`). -/
def chunkToWord (o : BitOrd) (w : WordType) : List Bool → Nat → Nat
  | [], _ => 0
  | b :: rest, j => (if b then 2 ^ bitPos o w j else 0) + chunkToWord o w rest (j + 1)

/-- Splitting a bit sequence into `n` chunks of `s` bits. -/
def chunksOfBits (s : Nat) : Nat → List Bool → List (List Bool)
  | 0, _ => []
  | n + 1, l => l.take s :: chunksOfBits s n (l.drop s)

/-- The `BitVec` value freshly packed from a logical bit sequence (the
`bitvec!`-style construction used to state the concrete scenario). -/
def repFromBits (o : BitOrd) (w : WordType) (bits : List Bool) : BitVecRep w :=
  ⟨bits.length,
    (chunksOfBits (wordBits w) ((bits.length + wordBits w - 1) / wordBits w) bits).map
      (fun c => chunkToWord o w c 0)⟩

/-- Modelled from the spec: the borrowed view `BitSlice<O, T>` (the
`bitvec` view type, external to this repository): a view of a bit
sequence's length and backing storage. -/
structure BitSliceRep (w : WordType) where
  len : Nat
  words : List Nat
  deriving DecidableEq

/-- Modelled from the spec: `BitSlice::to_vec`, materializing an owned
`BitVec` copy of the viewed storage. -/
def sliceToVec (w : WordType) (s : BitSliceRep w) : BitVecRep w :=
  ⟨s.len, s.words⟩

/-- Modelled from the spec: the fixed/boxed variant `BitBox<O, T>` (the
`bitvec` owned box, external to this repository). -/
structure BitBoxRep (w : WordType) where
  len : Nat
  words : List Nat
  deriving DecidableEq

/-- Modelled from the spec: `BitBox::as_bitslice`, viewing the box as a
borrowed slice of its storage. -/
def boxAsBitslice (w : WordType) (b : BitBoxRep w) : BitSliceRep w :=
  ⟨b.len, b.words⟩

/-- Modelled from the spec: `BitVec::as_bitslice`, viewing the vector as a
borrowed slice of its storage. -/
def vecAsBitslice (w : WordType) (v : BitVecRep w) : BitSliceRep w :=
  ⟨v.len, v.words⟩

/-- Modelled from the spec: `BitBox::from_bitslice`, wrapping a slice's
bits as an owned box. -/
def boxFromBitslice (w : WordType) (s : BitSliceRep w) : BitBoxRep w :=
  ⟨s.len, s.words⟩

/-- Rust `impl Encode for BitSlice`, `encode_to`: delegate by materializing
`self.to_vec()` and encoding the owned copy. -/
def encodeBitSlice (e : Endian) (w : WordType) (s : BitSliceRep w) : Option (List Nat) :=
  encode e w (sliceToVec w s)

/-- Rust `impl Encode for BitBox`, `encode_to`: delegate through
`self.as_bitslice()`. -/
def encodeBitBox (e : Endian) (w : WordType) (b : BitBoxRep w) : Option (List Nat) :=
  encodeBitSlice e w (boxAsBitslice w b)

/-- Outcome of `BitBox` decoding, mirroring `DecodeResult`. -/
inductive BoxDecodeResult (w : WordType) where
  | ok (value : BitBoxRep w) (rest : List Nat)
  | error
  | panic
  deriving DecidableEq

/-- Wrapping an owned `BitVec` decode outcome as a `BitBox` outcome
(`Self::from_bitslice(BitVec::decode(input)?.as_bitslice())`). -/
def boxWrap (w : WordType) : DecodeResult w → BoxDecodeResult w
  | .ok v rest => .ok (boxFromBitslice w (vecAsBitslice w v)) rest
  | .error => .error
  | .panic => .panic

/-- Rust `impl Decode for BitBox`, `decode`: run `BitVec` decoding, then
wrap the owned result. -/
def decodeBitBox (e : Endian) (w : WordType) (input : List Nat) : BoxDecodeResult w :=
  match decode e w input with
  | .ok v rest => .ok (boxFromBitslice w (vecAsBitslice w v)) rest
  | .error => .error
  | .panic => .panic

/-! Pointwise characterization of the `reverse_endian` swap loops. -/

theorem length_swapAt (l : List Nat) (i j : Nat) : (swapAt l i j).length = l.length := by
  simp [swapAt]

theorem getD_swapAt_fst (l : List Nat) (i j : Nat) (hi : i < l.length) :
    (swapAt l i j).getD i 0 = l.getD j 0 := by
  by_cases h : i = j
  · subst h
    simp [swapAt, List.getD_eq_getElem?_getD, List.getElem?_set, hi]
  · simp [swapAt, List.getD_eq_getElem?_getD, List.getElem?_set, Ne.symm h, hi]

theorem getD_swapAt_snd (l : List Nat) (i j : Nat) (hj : j < l.length) :
    (swapAt l i j).getD j 0 = l.getD i 0 := by
  simp [swapAt, List.getD_eq_getElem?_getD, List.getElem?_set, hj]

theorem getD_swapAt_other (l : List Nat) (i j k : Nat) (hki : k ≠ i) (hkj : k ≠ j) :
    (swapAt l i j).getD k 0 = l.getD k 0 := by
  simp [swapAt, List.getD_eq_getElem?_getD, List.getElem?_set, Ne.symm hki, Ne.symm hkj]

theorem length_swapPairs (l : List Nat) (base size : Nat) :
    ∀ n, (swapPairs l base size n).length = l.length := by
  intro n
  induction n with
  | zero => rfl
  | succ n ih => simp [swapPairs, length_swapAt, ih]

theorem getD_swapPairs (l : List Nat) (base size : Nat) (hl : base + size ≤ l.length) :
    ∀ n, n ≤ size / 2 → ∀ k,
      (swapPairs l base size n).getD k 0 =
        if base ≤ k ∧ k < base + size ∧ (k - base < n ∨ size - n ≤ k - base) then
          l.getD (base + ((size - 1) - (k - base))) 0
        else l.getD k 0 := by
  intro n
  induction n with
  | zero =>
    intro _ k
    rw [if_neg]
    · rfl
    · rintro ⟨h1, h2, h3⟩
      omega
  | succ n ih =>
    intro hn k
    have hn' : n ≤ size / 2 := by omega
    have hcnt : n < size - 1 - n := by omega
    have hi : base + n < l.length := by omega
    have hj : base + (size - 1) - n < l.length := by omega
    have hi' : base + n < (swapPairs l base size n).length := by
      rw [length_swapPairs]; exact hi
    have hj' : base + (size - 1) - n < (swapPairs l base size n).length := by
      rw [length_swapPairs]; exact hj
    show (swapAt (swapPairs l base size n) (base + n) (base + (size - 1) - n)).getD k 0 = _
    by_cases hk1 : k = base + n
    · subst hk1
      rw [getD_swapAt_fst _ _ _ hi', ih hn' (base + (size - 1) - n)]
      rw [if_neg, if_pos]
      · congr 1
        omega
      · omega
      · omega
    · by_cases hk2 : k = base + (size - 1) - n
      · subst hk2
        rw [getD_swapAt_snd _ _ _ hj', ih hn' (base + n)]
        rw [if_neg, if_pos]
        · congr 1
          omega
        · omega
        · omega
      · rw [getD_swapAt_other _ _ _ _ hk1 hk2, ih hn' k]
        by_cases hin : base ≤ k ∧ k < base + size ∧ (k - base < n ∨ size - n ≤ k - base)
        · rw [if_pos hin, if_pos]
          omega
        · by_cases hin' : base ≤ k ∧ k < base + size ∧ (k - base < n + 1 ∨ size - (n + 1) ≤ k - base)
          · exfalso
            omega
          · rw [if_neg hin, if_neg hin']

theorem getD_swapPairs_half (l : List Nat) (base size : Nat) (hs : 0 < size)
    (hl : base + size ≤ l.length) (k : Nat) :
    (swapPairs l base size (size / 2)).getD k 0 =
      if base ≤ k ∧ k < base + size then
        l.getD (base + ((size - 1) - (k - base))) 0
      else l.getD k 0 := by
  rw [getD_swapPairs l base size hl (size / 2) (Nat.le_refl _) k]
  by_cases hin : base ≤ k ∧ k < base + size
  · by_cases hmid : k - base < size / 2 ∨ size - size / 2 ≤ k - base
    · rw [if_pos ⟨hin.1, hin.2, hmid⟩, if_pos hin]
    · rw [if_neg, if_pos hin]
      · congr 1
        omega
      · rintro ⟨-, -, h3⟩
        exact hmid h3
  · rw [if_neg, if_neg hin]
    rintro ⟨h1, h2, -⟩
    exact hin ⟨h1, h2⟩

theorem chunk_div (c r size : Nat) (hs : 0 < size) (hr : r < size) :
    (c * size + r) / size = c := by
  rw [Nat.add_comm, Nat.add_mul_div_right _ _ hs, Nat.div_eq_of_lt hr]
  omega

theorem chunk_mod (c r size : Nat) (hr : r < size) : (c * size + r) % size = r := by
  rw [Nat.add_comm, Nat.add_mul_mod_self_right, Nat.mod_eq_of_lt hr]

theorem length_revChunks (size : Nat) :
    ∀ n i (l : List Nat), (revChunks size i n l).length = l.length := by
  intro n
  induction n with
  | zero => intro i l; rfl
  | succ n ih =>
    intro i l
    show (revChunks size (i + 1) n _).length = _
    rw [ih, length_swapPairs]

theorem getD_revChunks (size : Nat) (hs : 0 < size) :
    ∀ n i (l : List Nat), i * size + n * size ≤ l.length → ∀ k,
      (revChunks size i n l).getD k 0 =
        if i * size ≤ k ∧ k < i * size + n * size then l.getD (mirrorIdx size k) 0
        else l.getD k 0 := by
  intro n
  induction n with
  | zero =>
    intro i l hl k
    show l.getD k 0 = _
    rw [if_neg (by rintro ⟨h1, h2⟩; omega)]
  | succ n ih =>
    intro i l hl k
    have e1 : (i + 1) * size = i * size + size := Nat.succ_mul i size
    have e2 : (n + 1) * size = n * size + size := Nat.succ_mul n size
    have hchunk : i * size + size ≤ l.length := by omega
    have hlenS : (swapPairs l (i * size) size (size / 2)).length = l.length :=
      length_swapPairs l (i * size) size (size / 2)
    show (revChunks size (i + 1) n (swapPairs l (i * size) size (size / 2))).getD k 0 = _
    rw [ih (i + 1) _ (by rw [hlenS]; omega) k]
    by_cases hA : (i + 1) * size ≤ k ∧ k < (i + 1) * size + n * size
    · have hq : i + 1 ≤ k / size := by
        rw [Nat.le_div_iff_mul_le hs]
        omega
      have hmul : (i + 1) * size ≤ k / size * size := Nat.mul_le_mul_right size hq
      rw [if_pos hA, getD_swapPairs_half _ _ _ hs hchunk (mirrorIdx size k),
        if_neg (by rintro ⟨-, h2⟩; simp only [mirrorIdx] at h2; omega), if_pos (by omega)]
    · rw [if_neg hA, getD_swapPairs_half _ _ _ hs hchunk k]
      by_cases hB : i * size ≤ k ∧ k < i * size + size
      · rw [if_pos hB, if_pos (by omega)]
        obtain ⟨r, hk⟩ : ∃ r, k = i * size + r := ⟨k - i * size, by omega⟩
        have hr : r < size := by omega
        subst hk
        rw [mirrorIdx, chunk_div i r size hs hr, chunk_mod i r size hr]
        have : i * size + ((size - 1) - (i * size + r - i * size)) =
            i * size + ((size - 1) - r) := by omega
        rw [this]
      · rw [if_neg hB, if_neg (by omega)]

theorem length_reverse_endian (l : List Nat) (size : Nat) :
    (reverse_endian l size).length = l.length :=
  length_revChunks size (l.length / size) 0 l

theorem getD_reverse_endian (l : List Nat) (size : Nat) (hs : 0 < size) (k : Nat) :
    (reverse_endian l size).getD k 0 =
      if k < l.length / size * size then l.getD (mirrorIdx size k) 0
      else l.getD k 0 := by
  show (revChunks size 0 (l.length / size) l).getD k 0 = _
  rw [getD_revChunks size hs (l.length / size) 0 l
    (by rw [Nat.zero_mul, Nat.zero_add]; exact Nat.div_mul_le_self _ _) k]
  rw [Nat.zero_mul, Nat.zero_add]
  by_cases h : k < l.length / size * size
  · rw [if_pos ⟨Nat.zero_le k, h⟩, if_pos h]
  · rw [if_neg (by rintro ⟨-, h2⟩; exact h h2), if_neg h]

theorem mirrorIdx_lt (size k m : Nat) (hs : 0 < size) (h : k < m * size) :
    mirrorIdx size k < m * size := by
  have hq : k / size < m := by
    rw [Nat.div_lt_iff_lt_mul hs]
    omega
  have hq' : k / size + 1 ≤ m := hq
  have hmul : (k / size + 1) * size ≤ m * size := Nat.mul_le_mul_right size hq'
  have e1 : (k / size + 1) * size = k / size * size + size := Nat.succ_mul _ _
  simp only [mirrorIdx]
  omega

theorem mirrorIdx_mirrorIdx (size k : Nat) (hs : 0 < size) :
    mirrorIdx size (mirrorIdx size k) = k := by
  have hr : k % size < size := Nat.mod_lt k hs
  have hr' : (size - 1) - k % size < size := by omega
  have hdm : k / size * size + k % size = k := Nat.div_add_mod' k size
  simp only [mirrorIdx]
  rw [chunk_div _ _ _ hs hr', chunk_mod _ _ _ hr']
  omega

theorem ext_of_getD (l₁ l₂ : List Nat) (h : l₁.length = l₂.length)
    (h' : ∀ k, l₁.getD k 0 = l₂.getD k 0) : l₁ = l₂ := by
  apply List.ext_getElem h
  intro i h1 h2
  have := h' i
  simpa [List.getD_eq_getElem?_getD, List.getElem?_eq_getElem, h1, h2] using this

theorem getD_append_left (a b : List Nat) (k : Nat) (h : k < a.length) :
    (a ++ b).getD k 0 = a.getD k 0 := by
  simp [List.getD_eq_getElem?_getD, List.getElem?_append_left h]

theorem getD_append_shift (a b : List Nat) (k n : Nat) (h : a.length = n) :
    (a ++ b).getD (n + k) 0 = b.getD k 0 := by
  subst h
  simp [List.getD_eq_getElem?_getD, List.getElem?_append_right]

theorem getD_reverse (a : List Nat) (k : Nat) (h : k < a.length) :
    a.reverse.getD k 0 = a.getD (a.length - 1 - k) 0 := by
  simp [List.getD_eq_getElem?_getD, List.getElem?_reverse h]

theorem getD_drop (l : List Nat) (m k : Nat) : (l.drop m).getD k 0 = l.getD (m + k) 0 := by
  simp [List.getD_eq_getElem?_getD, List.getElem?_drop]

/-! Behaviour of `reverse_endian` as a whole: involution, identity at word
size one, untouched tail, and chunkwise reversal. -/

theorem reverse_endian_reverse_endian (l : List Nat) (size : Nat) (hs : 0 < size) :
    reverse_endian (reverse_endian l size) size = l := by
  apply ext_of_getD
  · rw [length_reverse_endian, length_reverse_endian]
  · intro k
    rw [getD_reverse_endian _ _ hs k, length_reverse_endian]
    by_cases h : k < l.length / size * size
    · rw [if_pos h, getD_reverse_endian _ _ hs, if_pos (mirrorIdx_lt _ _ _ hs h),
        mirrorIdx_mirrorIdx _ _ hs]
    · rw [if_neg h, getD_reverse_endian _ _ hs, if_neg h]

theorem reverse_endian_one (l : List Nat) : reverse_endian l 1 = l := by
  apply ext_of_getD
  · rw [length_reverse_endian]
  · intro k
    rw [getD_reverse_endian _ _ Nat.one_pos k]
    by_cases h : k < l.length / 1 * 1
    · rw [if_pos h]
      have hmi : mirrorIdx 1 k = k := by
        simp [mirrorIdx, Nat.div_one, Nat.mod_one]
      rw [hmi]
    · rw [if_neg h]

theorem reverse_endian_drop_untouched (l : List Nat) (size : Nat) (hs : 0 < size) :
    (reverse_endian l size).drop (l.length / size * size) =
      l.drop (l.length / size * size) := by
  apply ext_of_getD
  · rw [List.length_drop, List.length_drop, length_reverse_endian]
  · intro k
    rw [getD_drop, getD_drop, getD_reverse_endian _ _ hs, if_neg (by omega)]

theorem reverse_endian_append_chunk (a l : List Nat) (size : Nat) (hs : 0 < size)
    (ha : a.length = size) :
    reverse_endian (a ++ l) size = a.reverse ++ reverse_endian l size := by
  apply ext_of_getD
  · rw [length_reverse_endian]
    simp [length_reverse_endian, ha]
  · intro k
    have hM : (a ++ l).length / size * size = size + l.length / size * size := by
      rw [List.length_append, ha, Nat.add_comm size l.length, Nat.add_div_right _ hs,
        Nat.succ_mul]
      omega
    rw [getD_reverse_endian _ _ hs k, hM]
    have hra : a.reverse.length = size := by simp [ha]
    by_cases hk : k < size
    · rw [if_pos (by omega)]
      have hmi : mirrorIdx size k = (size - 1) - k := by
        simp only [mirrorIdx, Nat.div_eq_of_lt hk, Nat.mod_eq_of_lt hk]
        omega
      rw [hmi, getD_append_left _ _ _ (by omega), getD_append_left _ _ _ (by omega),
        getD_reverse a k (by omega), ha]
    · obtain ⟨k', rfl⟩ : ∃ k', k = size + k' := ⟨k - size, by omega⟩
      by_cases hk2 : k' < l.length / size * size
      · rw [if_pos (by omega)]
        have hdiv : (size + k') / size = k' / size + 1 := by
          rw [Nat.add_comm, Nat.add_div_right _ hs]
        have hmod : (size + k') % size = k' % size := by
          rw [Nat.add_comm, Nat.add_mod_right]
        have hmi : mirrorIdx size (size + k') = size + mirrorIdx size k' := by
          have h1 : k' % size < size := Nat.mod_lt _ hs
          simp only [mirrorIdx, hdiv, hmod, Nat.succ_mul]
          omega
        rw [hmi, getD_append_shift _ _ _ _ ha, getD_append_shift _ _ _ _ hra,
          getD_reverse_endian _ _ hs k', if_pos hk2]
      · rw [if_neg (by omega), getD_append_shift _ _ _ _ ha,
          getD_append_shift _ _ _ _ hra, getD_reverse_endian _ _ hs k', if_neg hk2]

/-! Byte images of words and their reconstruction. -/

theorem wordBytes_pos (w : WordType) : 0 < wordBytes w := by
  cases w <;> decide

theorem length_natToBytesLE (k : Nat) : ∀ x, (natToBytesLE k x).length = k := by
  induction k with
  | zero => intro x; rfl
  | succ k ih => intro x; simp [natToBytesLE, ih]

theorem natFromBytesLE_natToBytesLE (k : Nat) :
    ∀ x, x < 2 ^ (8 * k) → natFromBytesLE (natToBytesLE k x) = x := by
  induction k with
  | zero => intro x hx; interval_cases x; rfl
  | succ k ih =>
    intro x hx
    have hx' : x / 256 < 2 ^ (8 * k) := by
      have he : 8 * (k + 1) = 8 * k + 8 := by omega
      rw [he, pow_add] at hx
      norm_num at hx
      rw [Nat.div_lt_iff_lt_mul (by norm_num : (0:Nat) < 256)]
      omega
    show x % 256 + 256 * natFromBytesLE (natToBytesLE k (x / 256)) = x
    rw [ih _ hx']
    omega

theorem length_wordNativeBytes (e : Endian) (w : WordType) (x : Nat) :
    (wordNativeBytes e w x).length = wordBytes w := by
  cases e <;> simp [wordNativeBytes, length_natToBytesLE]

theorem reverse_wordNativeBytes (e : Endian) (w : WordType) (x : Nat) :
    (wordNativeBytes e w x).reverse = wordNativeBytes (flipEndian e) w x := by
  cases e <;> simp [wordNativeBytes, flipEndian]

theorem wordFromNativeBytes_wordNativeBytes (e : Endian) (w : WordType) (x : Nat)
    (h : x < 2 ^ wordBits w) :
    wordFromNativeBytes e (wordNativeBytes e w x) = x := by
  have h' : x < 2 ^ (8 * wordBytes w) := h
  cases e
  · exact natFromBytesLE_natToBytesLE _ _ h'
  · show natFromBytesLE (natToBytesLE (wordBytes w) x).reverse.reverse = x
    rw [List.reverse_reverse]
    exact natFromBytesLE_natToBytesLE _ _ h'

theorem asByteSlice_nil (e : Endian) (w : WordType) : asByteSlice e w [] = [] := by
  simp [asByteSlice]

theorem asByteSlice_cons (e : Endian) (w : WordType) (x : Nat) (ws : List Nat) :
    asByteSlice e w (x :: ws) = wordNativeBytes e w x ++ asByteSlice e w ws := by
  simp [asByteSlice]

theorem length_asByteSlice (e : Endian) (w : WordType) :
    ∀ words : List Nat, (asByteSlice e w words).length = words.length * wordBytes w := by
  intro words
  induction words with
  | nil => simp [asByteSlice_nil]
  | cons x ws ih =>
    rw [asByteSlice_cons]
    simp only [List.length_append, List.length_cons, ih, length_wordNativeBytes,
      Nat.succ_mul]
    omega

theorem reverse_endian_nil (size : Nat) : reverse_endian [] size = [] := by
  have h : (List.nil : List Nat).length / size = 0 := by simp
  show revChunks size 0 ((List.nil : List Nat).length / size) [] = []
  rw [h]
  rfl

theorem reverse_endian_asByteSlice (e : Endian) (w : WordType) :
    ∀ words : List Nat,
      reverse_endian (asByteSlice e w words) (wordBytes w) =
        asByteSlice (flipEndian e) w words := by
  intro words
  induction words with
  | nil => rw [asByteSlice_nil, asByteSlice_nil, reverse_endian_nil]
  | cons x ws ih =>
    rw [asByteSlice_cons, asByteSlice_cons,
      reverse_endian_append_chunk _ _ _ (wordBytes_pos w) (length_wordNativeBytes e w x),
      ih, reverse_wordNativeBytes]

theorem length_wordsFromBytes (e : Endian) (w : WordType) :
    ∀ (n : Nat) (bytes : List Nat), (wordsFromBytes e w n bytes).length = n := by
  intro n
  induction n with
  | zero => intro bytes; rfl
  | succ n ih => intro bytes; simp [wordsFromBytes, ih]

theorem wordsFromBytes_asByteSlice (e : Endian) (w : WordType) :
    ∀ words : List Nat, (∀ x ∈ words, x < 2 ^ wordBits w) →
      wordsFromBytes e w words.length (asByteSlice e w words) = words := by
  intro words
  induction words with
  | nil => intro _; rfl
  | cons x ws ih =>
    intro hb
    rw [asByteSlice_cons]
    show wordFromNativeBytes e ((wordNativeBytes e w x ++ asByteSlice e w ws).take (wordBytes w)) ::
        wordsFromBytes e w ws.length ((wordNativeBytes e w x ++ asByteSlice e w ws).drop (wordBytes w)) = x :: ws
    rw [List.take_left' (length_wordNativeBytes e w x),
      List.drop_left' (length_wordNativeBytes e w x),
      wordFromNativeBytes_wordNativeBytes e w x (hb x (List.mem_cons_self x ws)),
      ih (fun y hy => hb y (List.mem_cons_of_mem x hy))]

/-! Roundtrip of the modelled compact length codec. -/

theorem compactDecode_compactEncode (n : Nat) (h : n < 4294967296) (r : List Nat) :
    compactDecodeU32 (compactEncodeU32 n ++ r) = some (n, r) := by
  by_cases h1 : n < 64
  · simp only [compactEncodeU32, if_pos h1, List.cons_append, List.nil_append,
      compactDecodeU32]
    rw [if_pos (by omega)]
    have hv : n * 4 / 4 = n := by omega
    rw [hv]
  · by_cases h2 : n < 16384
    · simp only [compactEncodeU32, if_neg h1, if_pos h2, List.cons_append, List.nil_append,
        compactDecodeU32]
      rw [if_neg (by omega), if_pos (by omega)]
      have hv : ((n * 4 + 1) % 256 + 256 * ((n * 4 + 1) / 256)) / 4 = n := by omega
      rw [hv]
    · by_cases h3 : n < 1073741824
      · simp only [compactEncodeU32, if_neg h1, if_neg h2, if_pos h3, List.cons_append,
          List.nil_append, compactDecodeU32]
        rw [if_neg (by omega), if_neg (by omega), if_pos (by omega)]
        have hv : ((n * 4 + 2) % 256 + 256 * ((n * 4 + 2) / 256 % 256) +
            65536 * ((n * 4 + 2) / 65536 % 256) +
            16777216 * ((n * 4 + 2) / 16777216 % 256)) / 4 = n := by omega
        rw [hv]
      · simp only [compactEncodeU32, if_neg h1, if_neg h2, if_neg h3, List.cons_append,
          List.nil_append, compactDecodeU32]
        norm_num
        omega

/-! Capacity arithmetic and the decode-of-encode computation. -/

theorem wordBits_pos (w : WordType) : 0 < wordBits w := by
  cases w <;> decide

theorem le_ceil_mul (w : WordType) (bits : Nat) :
    bits ≤ (bits + wordBits w - 1) / wordBits w * wordBits w := by
  have hw : 0 < wordBits w := wordBits_pos w
  have hdm : (bits + wordBits w - 1) / wordBits w * wordBits w +
      (bits + wordBits w - 1) % wordBits w = bits + wordBits w - 1 :=
    Nat.div_add_mod' _ _
  have hlt : (bits + wordBits w - 1) % wordBits w < wordBits w := Nat.mod_lt _ hw
  omega

theorem decode_encode (e : Endian) (w : WordType) (v : BitVecRep w)
    (hwf : WF w v) (hlen : v.len ≤ 4294967295) :
    ∃ out, encode e w v = some out ∧ decode e w out = .ok v [] := by
  obtain ⟨hwl, hwb⟩ := hwf
  have hsz : 0 < wordBytes w := wordBytes_pos w
  have hrb : required_bytes w v.len = v.words.length * wordBytes w := by
    rw [required_bytes, hwl]
  have hcnt : required_bytes w v.len / wordBytes w = v.words.length := by
    rw [hrb, Nat.mul_div_cancel _ hsz]
  have hcap : v.len ≤ v.words.length * wordBits w := by
    rw [hwl]
    exact le_ceil_mul w v.len
  have hplen : ∀ e', (asByteSlice e' w v.words).length = required_bytes w v.len := by
    intro e'
    rw [length_asByteSlice, hrb]
  have hread : ∀ e', read_vec_from_u8s (required_bytes w v.len) (asByteSlice e' w v.words) =
      some (asByteSlice e' w v.words, []) := by
    intro e'
    rw [read_vec_from_u8s, if_pos (by rw [hplen])]
    rw [← hplen e', List.take_length, List.drop_length]
  by_cases hbig : e = .big ∧ 1 < wordBytes w
  · obtain ⟨rfl, hgt⟩ := hbig
    refine ⟨compactEncodeU32 v.len ++ asByteSlice .little w v.words, ?_, ?_⟩
    · simp only [encode, if_pos hlen]
      rw [if_pos (show True ∧ 1 < wordBytes w from ⟨trivial, hgt⟩),
        reverse_endian_asByteSlice]
      rfl
    · simp only [decode, compactDecode_compactEncode v.len (by omega), hread Endian.little]
      rw [if_pos (show True ∧ 1 < wordBytes w from ⟨trivial, hgt⟩),
        reverse_endian_asByteSlice]
      simp only [flipEndian]
      rw [hcnt, wordsFromBytes_asByteSlice Endian.big w v.words hwb, if_pos hcap]
  · refine ⟨compactEncodeU32 v.len ++ asByteSlice e w v.words, ?_, ?_⟩
    · simp only [encode, if_pos hlen]
      rw [if_neg hbig]
    · simp only [decode, compactDecode_compactEncode v.len (by omega), hread e]
      rw [if_neg hbig, hcnt, wordsFromBytes_asByteSlice e w v.words hwb, if_pos hcap]

/-! Claim theorems. -/

/-- Claim C1: for every bit vector over any bit order and any backing word
type in {u8, u16, u32, u64} (and either host endianness), decoding the
encoding succeeds and yields a bit vector with exactly the original logical
length and exactly the original bit values; slack bits beyond the logical
length are not observable through the result. -/
theorem claim_roundtrip (e : Endian) (o : BitOrd) (w : WordType) (v : BitVecRep w)
    (hwf : WF w v) (hlen : v.len ≤ 4294967295) :
    ∃ out res, encode e w v = some out ∧ decode e w out = .ok res [] ∧
      res.len = v.len ∧ ∀ i, i < v.len → bitAt o w res i = bitAt o w v i := by
  obtain ⟨out, h1, h2⟩ := decode_encode e w v hwf hlen
  exact ⟨out, v, h1, h2, rfl, fun i _ => rfl⟩

/-- Witness for C1 at the concrete bit vector of the spec's scenario. -/
theorem claim_roundtrip_witness :
    WF .u8 ⟨8, [172]⟩ ∧ (8 : Nat) ≤ 4294967295 ∧
      (∃ out res, encode .little .u8 (⟨8, [172]⟩ : BitVecRep .u8) = some out ∧
        decode .little .u8 out = .ok res [] ∧ res.len = 8 ∧
        ∀ i, i < 8 → bitAt .msb0 .u8 res i = bitAt .msb0 .u8 (⟨8, [172]⟩ : BitVecRep .u8) i) :=
  ⟨⟨by decide, by decide⟩, by decide,
    claim_roundtrip .little .msb0 .u8 ⟨8, [172]⟩ ⟨by decide, by decide⟩ (by decide)⟩

/-- Claim C2: the decoder never aborts through the fatal
`assert!(bits <= result.len())` (the `panic` outcome): for every decoder
input the parsed bit count never exceeds the bit capacity of the
materialized word array, so no input reaches the assertion's failure
branch and any capacity violation case is vacuous. -/
theorem claim_decode_no_panic (e : Endian) (w : WordType) (input : List Nat) :
    decode e w input ≠ .panic := by
  cases hc : compactDecodeU32 input with
  | none => simp [decode, hc]
  | some p =>
    obtain ⟨bits, r⟩ := p
    cases hr : read_vec_from_u8s (required_bytes w bits) r with
    | none => simp [decode, hc, hr]
    | some p2 =>
      obtain ⟨vec, rest⟩ := p2
      have hdiv : required_bytes w bits / wordBytes w =
          (bits + wordBits w - 1) / wordBits w := by
        rw [required_bytes, Nat.mul_div_cancel _ (wordBytes_pos w)]
      have hcap : bits ≤ required_bytes w bits / wordBytes w * wordBits w := by
        rw [hdiv]
        exact le_ceil_mul w bits
      simp only [decode, hc, hr]
      rw [length_wordsFromBytes e w, if_pos hcap]
      simp

/-- Claim C3: `required_bytes` equals `ceil(bit_count / word_bits) * (word_bits / 8)`
for every word type and bit count, is zero at zero bits for every width, and
takes the table values of the spec. -/
theorem claim_required_bytes :
    (∀ (w : WordType) (bits : Nat),
      required_bytes w bits = (bits ⌈/⌉ wordBits w) * (wordBits w / 8)) ∧
    (∀ w : WordType, required_bytes w 0 = 0) ∧
    required_bytes .u8 1 = 1 ∧ required_bytes .u8 7 = 1 ∧ required_bytes .u8 8 = 1 ∧
    required_bytes .u8 9 = 2 ∧
    required_bytes .u16 1 = 2 ∧ required_bytes .u16 15 = 2 ∧ required_bytes .u16 16 = 2 ∧
    required_bytes .u16 17 = 4 ∧
    required_bytes .u32 31 = 4 ∧ required_bytes .u32 32 = 4 ∧ required_bytes .u32 33 = 8 ∧
    required_bytes .u64 63 = 8 ∧ required_bytes .u64 64 = 8 ∧ required_bytes .u64 65 = 16 := by
  refine ⟨?_, ?_, ?_⟩
  · intro w bits
    rw [Nat.ceilDiv_eq_add_pred_div]
    cases w <;> simp [required_bytes, wordBits, wordBytes]
  · intro w
    cases w <;> decide
  · decide

/-- Claim C4: encoding a bit vector whose logical length exceeds 2^32 - 1
fails before any output is produced: no length prefix and no payload bytes
are emitted and the length is never clipped (the `none` outcome of
`encode`, the length assertion of `encode_to`). -/
theorem claim_encode_overflow (e : Endian) (w : WordType) (v : BitVecRep w)
    (h : 4294967295 < v.len) : encode e w v = none := by
  simp only [encode]
  rw [if_neg (by omega)]

/-- Witness for C4 at a length-2^32 bit vector. -/
theorem claim_encode_overflow_witness :
    4294967295 < (4294967296 : Nat) ∧
      encode .little .u8 (⟨4294967296, []⟩ : BitVecRep .u8) = none :=
  ⟨by decide, claim_encode_overflow .little .u8 ⟨4294967296, []⟩ (by decide)⟩

/-- Claim C5: on every input whose compact length prefix is truncated or
malformed, or whose remaining bytes fall short of `required_bytes` of the
parsed bit count, `decode` returns the typed error outcome (and in
particular neither panics nor returns a value). -/
theorem claim_decode_truncated (e : Endian) (w : WordType) (input : List Nat)
    (h : truncatedStream w input = true) : decode e w input = .error := by
  cases hc : compactDecodeU32 input with
  | none => simp [decode, hc]
  | some p =>
    obtain ⟨bits, r⟩ := p
    simp only [truncatedStream, hc] at h
    have hlt : r.length < required_bytes w bits := of_decide_eq_true h
    have hr : read_vec_from_u8s (required_bytes w bits) r = none := by
      rw [read_vec_from_u8s, if_neg (by omega)]
    simp [decode, hc, hr]

/-- Witness for C5: a one-byte prefix claiming one bit with no payload. -/
theorem claim_decode_truncated_witness :
    truncatedStream .u8 [4] = true ∧ decode .little .u8 [4] = .error :=
  ⟨by decide, claim_decode_truncated .little .u8 [4] (by decide)⟩

/-- Claim C6: applying `reverse_endian` twice with the same word size
restores the buffer, and with word size 1 a single application is the
identity. -/
theorem claim_reverse_endian_self_inverse :
    (∀ (l : List Nat) (size : Nat), 0 < size →
      reverse_endian (reverse_endian l size) size = l) ∧
    ∀ l : List Nat, reverse_endian l 1 = l :=
  ⟨fun l size hs => reverse_endian_reverse_endian l size hs,
    fun l => reverse_endian_one l⟩

/-- Witness for C6 at a five-byte buffer and word size two. -/
theorem claim_reverse_endian_self_inverse_witness :
    0 < 2 ∧ reverse_endian (reverse_endian [1, 2, 3, 4, 5] 2) 2 = [1, 2, 3, 4, 5] :=
  ⟨by decide, claim_reverse_endian_self_inverse.1 [1, 2, 3, 4, 5] 2 (by decide)⟩

/-- Claim C7: encoding the 8-bit sequence [1,0,1,0,1,1,0,0] with
most-significant-bit-first order and 8-bit words produces exactly the
compact encoding of 8 followed by the byte 0xAC (on either host), and
decoding that byte stream reproduces the identical 8-element sequence. -/
theorem claim_concrete_scenario :
    encode .little .u8 (repFromBits .msb0 .u8
        [true, false, true, false, true, true, false, false]) =
      some (compactEncodeU32 8 ++ [0xAC]) ∧
    encode .big .u8 (repFromBits .msb0 .u8
        [true, false, true, false, true, true, false, false]) =
      some (compactEncodeU32 8 ++ [0xAC]) ∧
    decode .little .u8 (compactEncodeU32 8 ++ [0xAC]) =
      .ok (repFromBits .msb0 .u8 [true, false, true, false, true, true, false, false]) [] ∧
    decode .big .u8 (compactEncodeU32 8 ++ [0xAC]) =
      .ok (repFromBits .msb0 .u8 [true, false, true, false, true, true, false, false]) [] ∧
    toBits .msb0 .u8 (repFromBits .msb0 .u8
        [true, false, true, false, true, true, false, false]) =
      [true, false, true, false, true, true, false, false] := by
  decide

/-- Claim C8: the wrapper views delegate exactly: a borrowed slice encodes
as the owned copy it materializes, a box encodes as its underlying bit
vector, and box decoding is bit-vector decoding followed by wrapping the
owned result. -/
theorem claim_wrapper_delegation (e : Endian) (w : WordType) :
    (∀ s : BitSliceRep w, encodeBitSlice e w s = encode e w (sliceToVec w s)) ∧
    (∀ b : BitBoxRep w, encodeBitBox e w b = encode e w ⟨b.len, b.words⟩) ∧
    (∀ input : List Nat, decodeBitBox e w input = boxWrap w (decode e w input)) := by
  refine ⟨fun s => rfl, fun b => rfl, fun input => ?_⟩
  cases h : decode e w input <;> simp [decodeBitBox, boxWrap, h]

/-- Claim C9: for every bit count representable in the length prefix, the
word array of `required_bytes / word_bytes` words built by `decode` has bit
capacity at least the bit count, so the internal assertion
`bits <= result.len()` always holds. -/
theorem claim_capacity_check_holds (w : WordType) (bits : Nat)
    (_h : bits ≤ 4294967295) :
    bits ≤ required_bytes w bits / wordBytes w * wordBits w := by
  rw [required_bytes, Nat.mul_div_cancel _ (wordBytes_pos w)]
  exact le_ceil_mul w bits

/-- Witness for C9 at nine bits over 8-bit words. -/
theorem claim_capacity_check_holds_witness :
    (9 : Nat) ≤ 4294967295 ∧
      9 ≤ required_bytes .u8 9 / wordBytes .u8 * wordBits .u8 :=
  ⟨by decide, claim_capacity_check_holds .u8 9 (by decide)⟩

/-- Claim C10: `reverse_endian` keeps the buffer length, transforms only the
first `len / size * size` bytes, and leaves the trailing `len mod size`
bytes unchanged. -/
theorem claim_reverse_endian_tail (l : List Nat) (size : Nat) (h : 0 < size) :
    (reverse_endian l size).length = l.length ∧
      (reverse_endian l size).drop (l.length / size * size) =
        l.drop (l.length / size * size) :=
  ⟨length_reverse_endian l size, reverse_endian_drop_untouched l size h⟩

/-- Witness for C10 at a three-byte buffer and word size two. -/
theorem claim_reverse_endian_tail_witness :
    0 < 2 ∧ ((reverse_endian [1, 2, 3] 2).length = ([1, 2, 3] : List Nat).length ∧
      (reverse_endian [1, 2, 3] 2).drop (([1, 2, 3] : List Nat).length / 2 * 2) =
        ([1, 2, 3] : List Nat).drop (([1, 2, 3] : List Nat).length / 2 * 2)) :=
  ⟨by decide, claim_reverse_endian_tail [1, 2, 3] 2 (by decide)⟩

end ParityCodec
